import Mathlib

/-!
Shallow embedding of the fixed-window in-memory rate-limiting backend of
this repository (`src/backend/memory.rs` together with the locked-map
counter store of `src/backend/memory/hashmap.rs`).

Modelling conventions:
* Instants of the monotonic clock and durations are natural numbers; the
  representable range of an instant is bounded by a parameter `instantMax`,
  so that `Instant::checked_add` can fail exactly when `now + interval`
  exceeds the representation.
* The `u64` counter is a natural number; `u64::saturating_sub` is `Nat`
  subtraction, which saturates at zero.
* The backing `HashMap<String, Value>` (kept behind one global `Mutex` by
  `LockedHashMap`) is an association list with at most one entry per key.
  `request` and `rollback` each perform their whole read-modify-write while
  holding the lock, so every concurrent history of the store is a
  sequential composition of the transition functions defined below.
-/

namespace RateLimit

/-- Counter stored per key (struct `Value` of the memory backend, as used by
`InMemoryBackend::request`): `ttl` is the instant at which the current
window ends, `count` the number of requests recorded in that window. -/
structure Value where
  ttl : Nat
  count : Nat
  deriving DecidableEq

/-- The key-to-counter map guarded by the global mutex of `LockedHashMap`,
modelled as an association list with at most one entry per key. -/
abbrev MemoryMap := List (String × Value)

/-- Lookup of a key in the map (the value stored in the slot for `k`). -/
def lookupKey : MemoryMap → String → Option Value
  | [], _ => none
  | (k1, v) :: rest, k => if k1 = k then some v else lookupKey rest k

/-- `LockedHashMap::contains_key`. -/
def contains_key (m : MemoryMap) (k : String) : Bool :=
  (lookupKey m k).isSome

/-- The `Entry::and_modify` half of the entry API obtained from
`LockedHashMap::entry`: if the key is occupied its value is replaced by
`f v` in place, otherwise the map is unchanged. -/
def and_modify : MemoryMap → String → (Value → Value) → MemoryMap
  | [], _, _ => []
  | (k1, v) :: rest, k, f =>
      if k1 = k then (k1, f v) :: rest else (k1, v) :: and_modify rest k f

/-- The `Entry::or_insert_with` half of the entry API: if the slot for `k`
is vacant, insert `default ()`; otherwise leave the map unchanged. -/
def or_insert_with (m : MemoryMap) (k : String) (default : Unit → Value) : MemoryMap :=
  if contains_key m k then m else (k, default ()) :: m

/-- `LockedHashMap::retain`: keep exactly the entries satisfying the
predicate, holding the global lock for the whole pass. -/
def retain (m : MemoryMap) (f : String → Value → Bool) : MemoryMap :=
  m.filter (fun kv => f kv.1 kv.2)

/-- The key slots of the backing hash map are pairwise distinct. -/
def nodupKeys (m : MemoryMap) : Prop := (m.map Prod.fst).Nodup

instance (m : MemoryMap) : Decidable (nodupKeys m) :=
  inferInstanceAs (Decidable (m.map Prod.fst).Nodup)

/-- `SimpleInput`: the per-call parameters handed to the backend. -/
structure SimpleInput where
  interval : Nat
  max_requests : Nat
  key : String
  deriving DecidableEq

/-- `SimpleOutput`: the rate-limit descriptor returned to the caller. -/
structure SimpleOutput where
  limit : Nat
  remaining : Nat
  reset : Nat
  deriving DecidableEq

/-- The error type of the in-memory backend, `std::convert::Infallible`:
it has no inhabitants. -/
inductive Infallible : Type

/-- `Instant::checked_add`: `none` exactly when `now + interval` exceeds
the representable range `instantMax` of the clock. -/
def checked_add (instantMax now interval : Nat) : Option Nat :=
  if now + interval ≤ instantMax then some (now + interval) else none

/-- Mutation performed by the `and_modify` closure of
`InMemoryBackend::request` on an occupied slot: an unexpired bucket is
incremented keeping its ttl, an expired one is reset to count 1 with the
candidate expiry. -/
def step (now candidate : Nat) (v : Value) : Value :=
  if v.ttl > now then { ttl := v.ttl, count := v.count + 1 }
  else { ttl := candidate, count := 1 }

/-- Value of the mutable local `count` after the entry call in
`InMemoryBackend::request`: it starts at 1 and the closure overwrites it
with the incremented stored count when the bucket is occupied and
unexpired. -/
def localCount (o : Option Value) (now : Nat) : Nat :=
  match o with
  | some v => if v.ttl > now then v.count + 1 else 1
  | none => 1

/-- Value of the mutable local `expiry` after the entry call in
`InMemoryBackend::request`: it starts at the candidate expiry and the
closure overwrites it with the stored ttl when the bucket is occupied and
unexpired. -/
def localExpiry (o : Option Value) (now candidate : Nat) : Nat :=
  match o with
  | some v => if v.ttl > now then v.ttl else candidate
  | none => candidate

/-- `InMemoryBackend::request`. The outer `Option` is `none` exactly when
`checked_add` fails (the source panics through `expect`); the inner
`Except` mirrors `Result<_, Infallible>`, which the code only ever builds
with `Ok`. The clock read `Instant::now()` is the parameter `now`. -/
def request (instantMax : Nat) (m : MemoryMap) (input : SimpleInput) (now : Nat) :
    Option (MemoryMap × Except Infallible (Bool × SimpleOutput × String)) :=
  match checked_add instantMax now input.interval with
  | none => none
  | some candidate =>
      let count := localCount (lookupKey m input.key) now
      let expiry := localExpiry (lookupKey m input.key) now candidate
      let m1 := or_insert_with (and_modify m input.key (step now candidate))
        input.key (fun _ => { ttl := candidate, count := 1 })
      some (m1, Except.ok (decide (count ≤ input.max_requests),
        { limit := input.max_requests,
          remaining := input.max_requests - count,
          reset := expiry },
        input.key))

/-- `InMemoryBackend::rollback`: decrement the counter under the token's
key, saturating at zero; `entry(token).and_modify(..)` without any insert,
so a vacant slot is left vacant. -/
def rollback (m : MemoryMap) (token : String) : MemoryMap :=
  and_modify m token (fun v => { ttl := v.ttl, count := v.count - 1 })

/-- One pass of the loop body of `InMemoryBackend::garbage_collector` at
scan time `now`: `map.retain(|_k, v| v.ttl > now)`. -/
def gc_pass (m : MemoryMap) (now : Nat) : MemoryMap :=
  retain m (fun _ v => decide (v.ttl > now))

/-- The assertion guarding `InMemoryBackend::garbage_collector`:
`interval.as_secs_f64() > 0`, which for an integral-nanosecond duration
holds exactly when the duration is nonzero. -/
def gc_interval_ok (interval : Nat) : Bool := decide (0 < interval)

/-- Default garbage-collector interval of the builder, in seconds. -/
def DEFAULT_GC_INTERVAL_SECONDS : Nat := 60 * 10

/-- The built backend: the shared map plus the configured reaper period
(`none` when garbage collection is disabled). -/
structure InMemoryBackend where
  map : MemoryMap
  gc_interval : Option Nat
  deriving DecidableEq

/-- `Builder::build`: creates an empty map and, when a reaper interval is
configured, starts the garbage collector, whose assertion panics at build
time (modelled as `none`) on a zero interval. -/
def build (gcInterval : Option Nat) : Option InMemoryBackend :=
  match gcInterval with
  | none => some { map := [], gc_interval := none }
  | some iv =>
      if gc_interval_ok iv then some { map := [], gc_interval := some iv }
      else none

/-! Basic lemmas about the locked-map operations. -/

theorem lookup_and_modify_self (m : MemoryMap) (k : String) (f : Value → Value) :
    lookupKey (and_modify m k f) k = (lookupKey m k).map f := by
  induction m with
  | nil => rfl
  | cons kv rest ih =>
      obtain ⟨k1, v⟩ := kv
      by_cases h : k1 = k <;> simp [and_modify, lookupKey, h, ih]

theorem lookup_and_modify_other (m : MemoryMap) (k k1 : String) (f : Value → Value)
    (h : k1 ≠ k) : lookupKey (and_modify m k f) k1 = lookupKey m k1 := by
  induction m with
  | nil => rfl
  | cons kv rest ih =>
      obtain ⟨k2, v⟩ := kv
      by_cases h2 : k2 = k
      · subst h2
        simp [and_modify, lookupKey, Ne.symm h, h]
      · simp [and_modify, lookupKey, h2, ih]

theorem lookup_or_insert_self (m : MemoryMap) (k : String) (g : Unit → Value) :
    lookupKey (or_insert_with m k g) k = some ((lookupKey m k).getD (g ())) := by
  unfold or_insert_with contains_key
  cases h : lookupKey m k <;> simp [h, lookupKey]

theorem lookup_or_insert_other (m : MemoryMap) (k k1 : String) (g : Unit → Value)
    (h : k1 ≠ k) : lookupKey (or_insert_with m k g) k1 = lookupKey m k1 := by
  unfold or_insert_with
  cases hc : contains_key m k <;> simp [lookupKey, Ne.symm h, hc]

theorem lookup_none_of_not_mem (m : MemoryMap) (k : String)
    (h : k ∉ m.map Prod.fst) : lookupKey m k = none := by
  induction m with
  | nil => rfl
  | cons kv rest ih =>
      obtain ⟨k1, v⟩ := kv
      simp only [List.map_cons, List.mem_cons] at h
      push_neg at h
      simp [lookupKey, Ne.symm h.1, ih h.2]

theorem retain_cons (k1 : String) (v : Value) (rest : MemoryMap)
    (f : String → Value → Bool) :
    retain ((k1, v) :: rest) f =
      if f k1 v then (k1, v) :: retain rest f else retain rest f := by
  simp [retain, List.filter_cons]

theorem mem_keys_retain (m : MemoryMap) (f : String → Value → Bool) (k : String)
    (h : k ∈ (retain m f).map Prod.fst) : k ∈ m.map Prod.fst := by
  rcases List.mem_map.mp h with ⟨kv, hkv, rfl⟩
  exact List.mem_map.mpr ⟨kv, (List.mem_filter.mp hkv).1, rfl⟩

theorem lookup_retain (m : MemoryMap) (f : String → Value → Bool) (k : String)
    (hnd : nodupKeys m) :
    lookupKey (retain m f) k =
      (lookupKey m k).bind (fun v => if f k v then some v else none) := by
  induction m with
  | nil => rfl
  | cons kv rest ih =>
      obtain ⟨k1, v⟩ := kv
      unfold nodupKeys at hnd
      simp only [List.map_cons, List.nodup_cons] at hnd
      have ih2 := ih hnd.2
      rw [retain_cons]
      by_cases h : k1 = k
      · subst h
        have hrest : lookupKey (retain rest f) k1 = none :=
          lookup_none_of_not_mem _ _ (fun hm => hnd.1 (mem_keys_retain rest f k1 hm))
        cases hf : f k1 v <;> simp [lookupKey, hf, hrest]
      · cases hf : f k1 v <;> simp [lookupKey, h, hf, ih2]

/-! Unfolding of `request` and the shape of the slot it leaves behind. -/

/-- The counter stored under the key after the entry call of `request`:
occupied slots go through the `and_modify` closure `step`, vacant ones are
filled by the `or_insert_with` closure. -/
def postValue (o : Option Value) (now candidate : Nat) : Value :=
  match o with
  | none => { ttl := candidate, count := 1 }
  | some v => step now candidate v

theorem request_eq (instantMax : Nat) (m : MemoryMap) (input : SimpleInput)
    (now : Nat) (hrep : now + input.interval ≤ instantMax) :
    request instantMax m input now =
      some (or_insert_with (and_modify m input.key (step now (now + input.interval)))
          input.key (fun _ => { ttl := now + input.interval, count := 1 }),
        Except.ok (decide (localCount (lookupKey m input.key) now ≤ input.max_requests),
          { limit := input.max_requests,
            remaining := input.max_requests - localCount (lookupKey m input.key) now,
            reset := localExpiry (lookupKey m input.key) now (now + input.interval) },
          input.key)) := by
  simp [request, checked_add, hrep]

theorem lookup_after_entry (m : MemoryMap) (k : String) (now candidate : Nat) :
    lookupKey (or_insert_with (and_modify m k (step now candidate)) k
        (fun _ => { ttl := candidate, count := 1 })) k =
      some (postValue (lookupKey m k) now candidate) := by
  rw [lookup_or_insert_self, lookup_and_modify_self]
  cases h : lookupKey m k <;> simp [postValue]

theorem lookup_after_entry_other (m : MemoryMap) (k : String) (now candidate : Nat)
    (g : Unit → Value) (k1 : String) (h : k1 ≠ k) :
    lookupKey (or_insert_with (and_modify m k (step now candidate)) k g) k1 =
      lookupKey m k1 := by
  rw [lookup_or_insert_other _ _ _ _ h, lookup_and_modify_other _ _ _ _ h]

theorem postValue_count (o : Option Value) (now candidate : Nat) :
    (postValue o now candidate).count = localCount o now := by
  cases o with
  | none => rfl
  | some v => by_cases h : v.ttl > now <;> simp [postValue, step, localCount, h]

theorem postValue_ttl (o : Option Value) (now candidate : Nat) :
    (postValue o now candidate).ttl = localExpiry o now candidate := by
  cases o with
  | none => rfl
  | some v => by_cases h : v.ttl > now <;> simp [postValue, step, localExpiry, h]

/-- Sample key used by the concrete witnesses. -/
def kA : String := "KEY1"

/-- Sample call parameters used by the concrete witnesses. -/
def inputA : SimpleInput := { interval := 60, max_requests := 5, key := kA }

/-- C1: the counter-store transition of `request` is exactly the
fixed-window step.  A vacant key gets `{count 1, expiry now + interval}`;
an occupied, unexpired counter is incremented by one with its expiry kept
unchanged (the candidate expiry `now + interval`, and with it any different
interval supplied by this call, is ignored); an occupied counter with
`expiry ≤ now` is reset in place to count 1 and expiry `now + interval`.
No other key is touched. -/
theorem C1_fixed_window_transition (instantMax : Nat) (m : MemoryMap)
    (input : SimpleInput) (now : Nat)
    (hrep : now + input.interval ≤ instantMax) :
    ∃ m1 r, request instantMax m input now = some (m1, r) ∧
      (lookupKey m input.key = none →
        lookupKey m1 input.key = some { ttl := now + input.interval, count := 1 }) ∧
      (∀ v, lookupKey m input.key = some v → v.ttl > now →
        lookupKey m1 input.key = some { ttl := v.ttl, count := v.count + 1 }) ∧
      (∀ v, lookupKey m input.key = some v → v.ttl ≤ now →
        lookupKey m1 input.key = some { ttl := now + input.interval, count := 1 }) ∧
      (∀ k, k ≠ input.key → lookupKey m1 k = lookupKey m k) := by
  refine ⟨_, _, request_eq instantMax m input now hrep, ?_, ?_, ?_, ?_⟩
  · intro h
    rw [lookup_after_entry, h]
    rfl
  · intro v hv httl
    rw [lookup_after_entry, hv]
    simp [postValue, step, httl]
  · intro v hv httl
    rw [lookup_after_entry, hv]
    simp [postValue, step, Nat.not_lt.mpr httl]
  · intro k hk
    exact lookup_after_entry_other m input.key now (now + input.interval) _ k hk

/-- Witness for C1 at a concrete input: a first request on an empty store. -/
theorem C1_witness :
    (0 + inputA.interval ≤ 1000) ∧
    (∃ m1 r, request 1000 [] inputA 0 = some (m1, r) ∧
      (lookupKey [] inputA.key = none →
        lookupKey m1 inputA.key = some { ttl := 0 + inputA.interval, count := 1 }) ∧
      (∀ v, lookupKey [] inputA.key = some v → v.ttl > 0 →
        lookupKey m1 inputA.key = some { ttl := v.ttl, count := v.count + 1 }) ∧
      (∀ v, lookupKey [] inputA.key = some v → v.ttl ≤ 0 →
        lookupKey m1 inputA.key = some { ttl := 0 + inputA.interval, count := 1 }) ∧
      (∀ k, k ≠ inputA.key → lookupKey m1 k = lookupKey [] k)) :=
  ⟨by decide, C1_fixed_window_transition 1000 [] inputA 0 (by decide)⟩

/-- C2: `request` returns `allowed = (c ≤ max_requests)`, the output
`{limit = max_requests, remaining = max_requests - c (saturating, never
negative), reset = e}` and the key as rollback token, where `c` is the
post-update count of the key's counter and `e` the expiry used in the
transition (which is the post-update stored expiry in every branch). -/
theorem C2_request_output (instantMax : Nat) (m : MemoryMap) (input : SimpleInput)
    (now : Nat) (hrep : now + input.interval ≤ instantMax) :
    ∃ m1 a out tok v1,
      request instantMax m input now = some (m1, Except.ok (a, out, tok)) ∧
      lookupKey m1 input.key = some v1 ∧
      a = decide (v1.count ≤ input.max_requests) ∧
      out.limit = input.max_requests ∧
      out.remaining = input.max_requests - v1.count ∧
      out.reset = v1.ttl ∧
      tok = input.key := by
  refine ⟨_, _, _, _, postValue (lookupKey m input.key) now (now + input.interval),
    request_eq instantMax m input now hrep, lookup_after_entry m input.key now _,
    ?_, rfl, ?_, ?_, rfl⟩
  · rw [postValue_count]
  · rw [postValue_count]
  · rw [postValue_ttl]

/-- Witness for C2 at a concrete input: a first request on an empty store. -/
theorem C2_witness :
    (0 + inputA.interval ≤ 1000) ∧
    (∃ m1 a out tok v1,
      request 1000 [] inputA 0 = some (m1, Except.ok (a, out, tok)) ∧
      lookupKey m1 inputA.key = some v1 ∧
      a = decide (v1.count ≤ inputA.max_requests) ∧
      out.limit = inputA.max_requests ∧
      out.remaining = inputA.max_requests - v1.count ∧
      out.reset = v1.ttl ∧
      tok = inputA.key) :=
  ⟨by decide, C2_request_output 1000 [] inputA 0 (by decide)⟩

theorem and_modify_absent (m : MemoryMap) (k : String) (f : Value → Value)
    (h : lookupKey m k = none) : and_modify m k f = m := by
  induction m with
  | nil => rfl
  | cons kv rest ih =>
      obtain ⟨k1, v⟩ := kv
      by_cases h1 : k1 = k
      · simp [lookupKey, h1] at h
      · simp only [lookupKey, if_neg h1] at h
        simp [and_modify, h1, ih h]

/-- C8: `rollback` mutates only the `count` field of the counter under the
token's key: the slot for any other key is untouched, the slot's presence
is unchanged (no insert, no removal), and the stored expiry is preserved. -/
theorem C8_rollback_frame (m : MemoryMap) (t k : String) :
    lookupKey (rollback m t) k =
      (if k = t then (lookupKey m t).map (fun v => { ttl := v.ttl, count := v.count - 1 })
       else lookupKey m k) ∧
    (lookupKey (rollback m t) k).isSome = (lookupKey m k).isSome ∧
    (lookupKey (rollback m t) k).map Value.ttl = (lookupKey m k).map Value.ttl := by
  by_cases h : k = t
  · subst h
    refine ⟨by simp [rollback, lookup_and_modify_self], ?_, ?_⟩ <;>
      rw [rollback, lookup_and_modify_self] <;> cases lookupKey m k <;> simp
  · have he := lookup_and_modify_other m t k
      (fun v => { ttl := v.ttl, count := v.count - 1 }) h
    exact ⟨by simp [rollback, h, he], by simp [rollback, he], by simp [rollback, he]⟩

/-- Emptying a just-incremented slot by `rollback` leaves a slot whose
observable count at any later instant matches the original map's. -/
theorem localCount_rollback (m : MemoryMap) (k : String) (now now1 interval : Nat)
    (hn : now ≤ now1) :
    localCount (lookupKey (rollback
        (or_insert_with (and_modify m k (step now (now + interval))) k
          (fun _ => { ttl := now + interval, count := 1 })) k) k) now1 =
      localCount (lookupKey m k) now1 := by
  rw [rollback, lookup_and_modify_self, lookup_after_entry]
  cases h : lookupKey m k with
  | none =>
      by_cases hni : now + interval > now1 <;> simp [postValue, localCount, hni]
  | some v =>
      by_cases hv : v.ttl > now
      · simp [postValue, step, hv, localCount]
      · have hv1 : ¬ v.ttl > now1 := fun hc => hv (lt_of_le_of_lt hn hc)
        by_cases hni : now + interval > now1 <;>
          simp [postValue, step, hv, hv1, localCount, hni]

/-- C3: `rollback` decrements the counter under the token's key by one,
saturating at zero, and is a no-op on an absent key; consequently a
`request` immediately followed by `rollback` of the returned token is
observably equivalent, for the remaining count reported by any later
request on that key, to never having made the request (no other increment
having touched the key in between). -/
theorem C3_rollback_inverse (instantMax : Nat) (m : MemoryMap)
    (input probe : SimpleInput) (now now1 : Nat)
    (hn : now ≤ now1) (hk : probe.key = input.key)
    (hrep : now + input.interval ≤ instantMax)
    (hrep1 : now1 + probe.interval ≤ instantMax) :
    (∀ m2 t v, lookupKey m2 t = some v →
      lookupKey (rollback m2 t) t = some { ttl := v.ttl, count := v.count - 1 }) ∧
    (∀ m2 t, lookupKey m2 t = none → rollback m2 t = m2) ∧
    (∃ m1 a1 o1 tok m2 a2 o2 t2 m3 a3 o3 t3,
      request instantMax m input now = some (m1, Except.ok (a1, o1, tok)) ∧
      request instantMax (rollback m1 tok) probe now1 = some (m2, Except.ok (a2, o2, t2)) ∧
      request instantMax m probe now1 = some (m3, Except.ok (a3, o3, t3)) ∧
      o2.remaining = o3.remaining ∧ o2.limit = o3.limit ∧ a2 = a3) := by
  refine ⟨?_, ?_, ?_⟩
  · intro m2 t v hv
    rw [rollback, lookup_and_modify_self, hv]
    rfl
  · intro m2 t h
    exact and_modify_absent m2 t _ h
  · refine ⟨_, _, _, _, _, _, _, _, _, _, _, _,
      request_eq instantMax m input now hrep,
      request_eq instantMax _ probe now1 hrep1,
      request_eq instantMax m probe now1 hrep1, ?_, rfl, ?_⟩
    · simp only [hk]
      rw [localCount_rollback m input.key now now1 input.interval hn]
    · simp only [hk]
      rw [localCount_rollback m input.key now now1 input.interval hn]

/-- Witness for C3 at a concrete input: request then rollback on a fresh
key, probed by a request at the same instant. -/
theorem C3_witness :
    (0 ≤ 0) ∧ (inputA.key = inputA.key) ∧ (0 + inputA.interval ≤ 1000) ∧
    ((∀ m2 t v, lookupKey m2 t = some v →
      lookupKey (rollback m2 t) t = some { ttl := v.ttl, count := v.count - 1 }) ∧
    (∀ m2 t, lookupKey m2 t = none → rollback m2 t = m2) ∧
    (∃ m1 a1 o1 tok m2 a2 o2 t2 m3 a3 o3 t3,
      request 1000 [] inputA 0 = some (m1, Except.ok (a1, o1, tok)) ∧
      request 1000 (rollback m1 tok) inputA 0 = some (m2, Except.ok (a2, o2, t2)) ∧
      request 1000 [] inputA 0 = some (m3, Except.ok (a3, o3, t3)) ∧
      o2.remaining = o3.remaining ∧ o2.limit = o3.limit ∧ a2 = a3)) :=
  ⟨Nat.le_refl 0, rfl, by decide,
    C3_rollback_inverse 1000 [] inputA inputA 0 0 (Nat.le_refl 0) rfl
      (by decide) (by decide)⟩

/-- C4: a reaper pass at scan time `now` applies exactly the predicate
`value.ttl > now`: every entry whose window has elapsed (`ttl ≤ now`) is
removed and every entry whose window is still active survives with its
count and expiry unchanged. -/
theorem C4_reaper_pass (m : MemoryMap) (now : Nat) (hnd : nodupKeys m) :
    ∀ k, lookupKey (gc_pass m now) k =
        (lookupKey m k).bind (fun v => if v.ttl > now then some v else none) ∧
      (∀ v, lookupKey m k = some v → v.ttl ≤ now →
        lookupKey (gc_pass m now) k = none) ∧
      (∀ v, lookupKey m k = some v → v.ttl > now →
        lookupKey (gc_pass m now) k = some v) := by
  intro k
  have hbase : lookupKey (gc_pass m now) k =
      (lookupKey m k).bind (fun v => if v.ttl > now then some v else none) := by
    rw [gc_pass, lookup_retain m _ k hnd]
    cases lookupKey m k <;> simp
  refine ⟨hbase, ?_, ?_⟩
  · intro v hv httl
    rw [hbase, hv]
    simp [Nat.not_lt.mpr httl]
  · intro v hv httl
    rw [hbase, hv]
    simp [httl]

/-- Witness for C4 at a concrete store: one expired and one live entry at
scan time 5. -/
theorem C4_witness :
    nodupKeys [(kA, ⟨5, 2⟩), ("KEY2", ⟨9, 1⟩)] ∧
    (∀ k, lookupKey (gc_pass [(kA, ⟨5, 2⟩), ("KEY2", ⟨9, 1⟩)] 5) k =
        (lookupKey [(kA, ⟨5, 2⟩), ("KEY2", ⟨9, 1⟩)] k).bind
          (fun v => if v.ttl > 5 then some v else none) ∧
      (∀ v, lookupKey [(kA, ⟨5, 2⟩), ("KEY2", ⟨9, 1⟩)] k = some v → v.ttl ≤ 5 →
        lookupKey (gc_pass [(kA, ⟨5, 2⟩), ("KEY2", ⟨9, 1⟩)] 5) k = none) ∧
      (∀ v, lookupKey [(kA, ⟨5, 2⟩), ("KEY2", ⟨9, 1⟩)] k = some v → v.ttl > 5 →
        lookupKey (gc_pass [(kA, ⟨5, 2⟩), ("KEY2", ⟨9, 1⟩)] 5) k = some v)) :=
  ⟨by decide, C4_reaper_pass [(kA, ⟨5, 2⟩), ("KEY2", ⟨9, 1⟩)] 5 (by decide)⟩

/-- C10: the window boundary is exclusive at the stored expiry: a request
arriving when `now` equals the expiry exactly finds the window elapsed and
resets the counter to count 1 with a fresh expiry, and a reaper pass whose
scan time equals the expiry removes the entry. -/
theorem C10_exclusive_boundary (instantMax : Nat) (m : MemoryMap)
    (input : SimpleInput) (v : Value) (hnd : nodupKeys m)
    (hv : lookupKey m input.key = some v)
    (hrep : v.ttl + input.interval ≤ instantMax) :
    (∃ m1 a out tok,
      request instantMax m input v.ttl = some (m1, Except.ok (a, out, tok)) ∧
      lookupKey m1 input.key = some { ttl := v.ttl + input.interval, count := 1 } ∧
      out.remaining = input.max_requests - 1) ∧
    lookupKey (gc_pass m v.ttl) input.key = none := by
  constructor
  · refine ⟨_, _, _, _, request_eq instantMax m input v.ttl hrep, ?_, ?_⟩
    · rw [lookup_after_entry, hv]
      simp [postValue, step]
    · rw [hv]
      simp [localCount]
  · rw [gc_pass, lookup_retain m _ input.key hnd, hv]
    simp

/-- Witness for C10 at a concrete store: a counter whose expiry is exactly
the probe time. -/
theorem C10_witness :
    nodupKeys [(kA, ⟨5, 3⟩)] ∧
    lookupKey [(kA, ⟨5, 3⟩)] inputA.key = some ⟨5, 3⟩ ∧
    ((5 : Nat) + inputA.interval ≤ 1000) ∧
    ((∃ m1 a out tok,
      request 1000 [(kA, ⟨5, 3⟩)] inputA 5 = some (m1, Except.ok (a, out, tok)) ∧
      lookupKey m1 inputA.key = some { ttl := 5 + inputA.interval, count := 1 } ∧
      out.remaining = inputA.max_requests - 1) ∧
    lookupKey (gc_pass [(kA, ⟨5, 3⟩)] 5) inputA.key = none) :=
  ⟨by decide, by decide, by decide,
    C10_exclusive_boundary 1000 [(kA, ⟨5, 3⟩)] inputA ⟨5, 3⟩
      (by decide) (by decide) (by decide)⟩

/-- C6: `request` fails fatally exactly when `now + interval` overflows the
time representation (the `expect` on `Instant::checked_add`); on every
representable input it returns an `Ok` result, and its declared error type
`Infallible` is uninhabited. -/
theorem C6_infallible (instantMax : Nat) (m : MemoryMap) (input : SimpleInput)
    (now : Nat) :
    (request instantMax m input now = none ↔ instantMax < now + input.interval) ∧
    (now + input.interval ≤ instantMax →
      ∃ m1 r, request instantMax m input now = some (m1, Except.ok r)) ∧
    (∀ e : Infallible, False) := by
  refine ⟨⟨?_, ?_⟩, ?_, fun e => nomatch e⟩
  · intro h
    by_contra hc
    push_neg at hc
    rw [request_eq instantMax m input now hc] at h
    exact Option.noConfusion h
  · intro h
    simp [request, checked_add, Nat.not_le.mpr h]
  · intro h
    exact ⟨_, _, request_eq instantMax m input now h⟩

/-- Witness for C6 at concrete inputs, including an overflowing one. -/
theorem C6_witness :
    ((request 10 [] { interval := 100, max_requests := 1, key := kA } 0 = none ↔
        10 < 0 + 100) ∧
      (0 + 100 ≤ 10 →
        ∃ m1 r, request 10 [] { interval := 100, max_requests := 1, key := kA } 0 =
          some (m1, Except.ok r)) ∧
      (∀ e : Infallible, False)) ∧
    ((request 1000 [] inputA 0 = none ↔ 1000 < 0 + inputA.interval) ∧
      (0 + inputA.interval ≤ 1000 →
        ∃ m1 r, request 1000 [] inputA 0 = some (m1, Except.ok r)) ∧
      (∀ e : Infallible, False)) :=
  ⟨C6_infallible 10 [] { interval := 100, max_requests := 1, key := kA } 0,
    C6_infallible 1000 [] inputA 0⟩

/-- C7: a zero garbage-collection period is rejected by the assertion in
`garbage_collector`, which runs during `Builder::build` — a construction
time failure; every positive period builds successfully (so no
configuration error can surface at a later reaper tick), and garbage
collection may be disabled outright. -/
theorem C7_gc_period_config (p : Nat) :
    (build (some p) = none ↔ p = 0) ∧
    (p ≠ 0 → ∃ b, build (some p) = some b ∧ b.gc_interval = some p) ∧
    build none = some { map := [], gc_interval := none } := by
  refine ⟨?_, ?_, rfl⟩
  · by_cases hp : p = 0
    · subst hp
      simp [build, gc_interval_ok]
    · simp [build, gc_interval_ok, Nat.pos_of_ne_zero hp, hp]
  · intro hp
    refine ⟨{ map := [], gc_interval := some p }, ?_, rfl⟩
    simp [build, gc_interval_ok, Nat.pos_of_ne_zero hp]

/-- Witness for C7 at concrete periods 0 and 3. -/
theorem C7_witness :
    ((build (some 0) = none ↔ (0 : Nat) = 0) ∧
      ((0 : Nat) ≠ 0 → ∃ b, build (some 0) = some b ∧ b.gc_interval = some 0) ∧
      build none = some { map := [], gc_interval := none }) ∧
    ((build (some 3) = none ↔ (3 : Nat) = 0) ∧
      ((3 : Nat) ≠ 0 → ∃ b, build (some 3) = some b ∧ b.gc_interval = some 3) ∧
      build none = some { map := [], gc_interval := none }) :=
  ⟨C7_gc_period_config 0, C7_gc_period_config 3⟩

/-- C9: a call with `max_requests = 0` is always denied with
`remaining = 0`, yet the counter transition on the store is identical to
that of a call with any other limit: denied requests still consume a
recorded attempt in the current window. -/
theorem C9_zero_limit (instantMax : Nat) (m : MemoryMap) (input : SimpleInput)
    (now : Nat) (hmax : input.max_requests = 0)
    (hrep : now + input.interval ≤ instantMax) :
    ∃ m1 out tok,
      request instantMax m input now = some (m1, Except.ok (false, out, tok)) ∧
      out.remaining = 0 ∧
      (∀ mr, ∃ a2 out2 tok2,
        request instantMax m
          { interval := input.interval, max_requests := mr, key := input.key } now =
          some (m1, Except.ok (a2, out2, tok2))) := by
  have hc1 : 1 ≤ localCount (lookupKey m input.key) now := by
    cases h : lookupKey m input.key with
    | none => simp [localCount]
    | some v => by_cases hv : v.ttl > now <;> simp [localCount, hv]
  refine ⟨or_insert_with (and_modify m input.key (step now (now + input.interval)))
      input.key (fun _ => { ttl := now + input.interval, count := 1 }),
    { limit := input.max_requests,
      remaining := input.max_requests - localCount (lookupKey m input.key) now,
      reset := localExpiry (lookupKey m input.key) now (now + input.interval) },
    input.key, ?_, ?_, ?_⟩
  · rw [request_eq instantMax m input now hrep]
    have hfalse :
        decide (localCount (lookupKey m input.key) now ≤ input.max_requests) = false :=
      decide_eq_false (by omega)
    rw [hfalse]
  · simp [hmax]
  · intro mr
    exact ⟨_, _, _, request_eq instantMax m
      { interval := input.interval, max_requests := mr, key := input.key } now hrep⟩

/-- Sample zero-limit call parameters used by the concrete witness. -/
def inputZ : SimpleInput := { interval := 60, max_requests := 0, key := kA }

/-- Witness for C9 at a concrete input with limit zero. -/
theorem C9_witness :
    (inputZ.max_requests = 0) ∧ (0 + inputZ.interval ≤ 1000) ∧
    (∃ m1 out tok,
      request 1000 [] inputZ 0 = some (m1, Except.ok (false, out, tok)) ∧
      out.remaining = 0 ∧
      (∀ mr, ∃ a2 out2 tok2,
        request 1000 []
          { interval := inputZ.interval, max_requests := mr, key := inputZ.key } 0 =
          some (m1, Except.ok (a2, out2, tok2)))) :=
  ⟨rfl, by decide, C9_zero_limit 1000 [] inputZ 0 rfl (by decide)⟩

/-! Concurrent increments.  Every `request` performs its whole
read-modify-write while holding the global mutex of `LockedHashMap` (the
`OwningHandle` ties the entry's lifetime to the `MutexGuard`), so any
execution of `n` concurrent calls on a shared backend is observationally a
sequential composition of `n` calls; `run_requests` is that composition,
collecting the `(allowed, output)` pair each caller observes. -/

def run_requests (instantMax : Nat) (input : SimpleInput) (now : Nat) :
    Nat → MemoryMap → Option (MemoryMap × List (Bool × SimpleOutput))
  | 0, m => some (m, [])
  | n + 1, m =>
      (request instantMax m input now).bind (fun res =>
        match res.2 with
        | Except.error e => nomatch e
        | Except.ok (a, o, _) =>
            (run_requests instantMax input now n res.1).map
              (fun p => (p.1, (a, o) :: p.2)))

theorem run_requests_active (instantMax : Nat) (input : SimpleInput) (now e : Nat)
    (n : Nat) :
    ∀ (m : MemoryMap) (c : Nat),
      lookupKey m input.key = some { ttl := e, count := c } → now < e →
      now + input.interval ≤ instantMax →
      ∃ mF, run_requests instantMax input now n m = some (mF,
        (List.range n).map (fun i =>
          (decide (c + (i + 1) ≤ input.max_requests),
           { limit := input.max_requests,
             remaining := input.max_requests - (c + (i + 1)),
             reset := e }))) := by
  induction n with
  | zero =>
      intro m c hm he hrep
      exact ⟨m, by simp [run_requests]⟩
  | succ n ih =>
      intro m c hm he hrep
      have hreq := request_eq instantMax m input now hrep
      rw [hm] at hreq
      simp only [localCount, localExpiry, if_pos he] at hreq
      have hm1 : lookupKey (or_insert_with (and_modify m input.key
          (step now (now + input.interval))) input.key
          (fun _ => { ttl := now + input.interval, count := 1 })) input.key =
          some { ttl := e, count := c + 1 } := by
        rw [lookup_after_entry, hm]
        simp [postValue, step, he]
      obtain ⟨mF, hrun⟩ := ih _ (c + 1) hm1 he hrep
      refine ⟨mF, ?_⟩
      rw [run_requests, hreq]
      simp only [Option.some_bind]
      rw [hrun]
      simp only [Option.map_some']
      rw [List.range_succ_eq_map, List.map_cons, List.map_map]
      have hfun : ∀ i ∈ List.range n,
          ((fun i => (decide (c + (i + 1) ≤ input.max_requests),
            ({ limit := input.max_requests,
               remaining := input.max_requests - (c + (i + 1)),
               reset := e } : SimpleOutput))) ∘ Nat.succ) i =
          (fun i => (decide (c + 1 + (i + 1) ≤ input.max_requests),
            ({ limit := input.max_requests,
               remaining := input.max_requests - (c + 1 + (i + 1)),
               reset := e } : SimpleOutput))) i := by
        intro i _
        have harith : c + (i + 1 + 1) = c + 1 + (i + 1) := by omega
        simp [Function.comp, harith]
      rw [List.map_congr_left hfun]

theorem run_requests_fresh (instantMax : Nat) (input : SimpleInput) (now : Nat)
    (n : Nat) (m : MemoryMap) (hfresh : lookupKey m input.key = none)
    (hpos : 0 < input.interval) (hrep : now + input.interval ≤ instantMax) :
    ∃ mF, run_requests instantMax input now n m = some (mF,
      (List.range n).map (fun i =>
        (decide (i + 1 ≤ input.max_requests),
         { limit := input.max_requests,
           remaining := input.max_requests - (i + 1),
           reset := now + input.interval }))) := by
  cases n with
  | zero => exact ⟨m, by simp [run_requests]⟩
  | succ n =>
      have hreq := request_eq instantMax m input now hrep
      rw [hfresh] at hreq
      simp only [localCount, localExpiry] at hreq
      have hm1 : lookupKey (or_insert_with (and_modify m input.key
          (step now (now + input.interval))) input.key
          (fun _ => { ttl := now + input.interval, count := 1 })) input.key =
          some { ttl := now + input.interval, count := 1 } := by
        rw [lookup_after_entry, hfresh]
        rfl
      have he : now < now + input.interval := Nat.lt_add_of_pos_right hpos
      obtain ⟨mF, hrun⟩ := run_requests_active instantMax input now
        (now + input.interval) n _ 1 hm1 he hrep
      refine ⟨mF, ?_⟩
      rw [run_requests, hreq]
      simp only [Option.some_bind]
      rw [hrun]
      simp only [Option.map_some']
      rw [List.range_succ_eq_map, List.map_cons, List.map_map]
      have hfun : ∀ i ∈ List.range n,
          ((fun i => (decide (i + 1 ≤ input.max_requests),
            ({ limit := input.max_requests,
               remaining := input.max_requests - (i + 1),
               reset := now + input.interval } : SimpleOutput))) ∘ Nat.succ) i =
          (fun i => (decide (1 + (i + 1) ≤ input.max_requests),
            ({ limit := input.max_requests,
               remaining := input.max_requests - (1 + (i + 1)),
               reset := now + input.interval } : SimpleOutput))) i := by
        intro i _
        have harith : i + 1 + 1 = 1 + (i + 1) := by omega
        simp [Function.comp, harith]
      rw [List.map_congr_left hfun]

/-- C5: `n` calls on the same fresh key with `max_requests = n`, linearized
in some order by the single critical-section acquisition each call holds
for its whole read-modify-write, observe the distinct post-update counts
`1..n` (reported through `remaining = n - count`), and all `n` of them are
allowed: increments are exactly once per call, with no double counting and
no lost updates. -/
theorem C5_concurrent_requests (instantMax : Nat) (input : SimpleInput)
    (m : MemoryMap) (n now : Nat)
    (hfresh : lookupKey m input.key = none)
    (hmax : input.max_requests = n)
    (hpos : 0 < input.interval)
    (hrep : now + input.interval ≤ instantMax) :
    ∃ mF outs, run_requests instantMax input now n m = some (mF, outs) ∧
      outs = (List.range n).map (fun i =>
        (true, { limit := n, remaining := n - (i + 1),
                 reset := now + input.interval })) ∧
      outs.map (fun p => n - p.2.remaining) = (List.range n).map (fun i => i + 1) ∧
      (outs.filter (fun p => p.1)).length = n := by
  obtain ⟨mF, hrun⟩ := run_requests_fresh instantMax input now n m hfresh hpos hrep
  have houts : (List.range n).map (fun i =>
      (decide (i + 1 ≤ input.max_requests),
       ({ limit := input.max_requests,
          remaining := input.max_requests - (i + 1),
          reset := now + input.interval } : SimpleOutput))) =
      (List.range n).map (fun i =>
        (true, ({ limit := n, remaining := n - (i + 1),
                  reset := now + input.interval } : SimpleOutput))) := by
    apply List.map_congr_left
    intro i hi
    have hlt : i < n := List.mem_range.mp hi
    rw [hmax]
    simp [decide_eq_true (show i + 1 ≤ n from hlt)]
  refine ⟨mF, _, hrun, houts, ?_, ?_⟩
  · rw [houts, List.map_map]
    apply List.map_congr_left
    intro i hi
    have hlt : i < n := List.mem_range.mp hi
    simp [Function.comp]
    omega
  · rw [houts]
    rw [List.filter_eq_self.mpr]
    · simp
    · intro p hp
      rcases List.mem_map.mp hp with ⟨i, _, rfl⟩
      rfl

/-- Counterexample to the unrestricted claim: with a zero interval every
call finds the window already elapsed (the boundary is exclusive) and
resets the counter, so two calls on a fresh key with `max_requests = 2`
both observe post-update count 1 (`remaining = 1`) instead of the distinct
counts 1 and 2. -/
theorem C5_counterexample :
    run_requests 1000 { interval := 0, max_requests := 2, key := kA } 0 2 [] =
      some ([(kA, { ttl := 0, count := 1 })],
        [(true, { limit := 2, remaining := 1, reset := 0 }),
         (true, { limit := 2, remaining := 1, reset := 0 })]) := by
  decide

/-- Sample call parameters with `max_requests = 3` used by the concrete
witness for the concurrent-increment claim. -/
def inputB : SimpleInput := { interval := 60, max_requests := 3, key := kA }

/-- Witness for C5 at a concrete input: three calls on a fresh key with
limit three. -/
theorem C5_witness :
    (lookupKey [] inputB.key = none) ∧ (inputB.max_requests = 3) ∧
    (0 < inputB.interval) ∧ (0 + inputB.interval ≤ 1000) ∧
    (∃ mF outs, run_requests 1000 inputB 0 3 [] = some (mF, outs) ∧
      outs = (List.range 3).map (fun i =>
        (true, { limit := 3, remaining := 3 - (i + 1),
                 reset := 0 + inputB.interval })) ∧
      outs.map (fun p => 3 - p.2.remaining) = (List.range 3).map (fun i => i + 1) ∧
      (outs.filter (fun p => p.1)).length = 3) :=
  ⟨rfl, rfl, by decide, by decide,
    C5_concurrent_requests 1000 inputB [] 3 0 rfl rfl (by decide) (by decide)⟩

end RateLimit
